import Mathlib

/-!
Verification of the ThinkDSP chapter-1 signal/wave/spectrum engine.

The repository's own files (`src/code/chap01.py`, `src/code/chap01soln.py`)
define `stretch` and `filter_wave` directly; those two functions are embedded
from the source.  The `thinkdsp` module they call (Signal, Wave, Spectrum,
the transform engine) is not part of the repository's source tree, so those
operations are modelled from the specification, as indicated on each
definition.  Floating-point sample values are embedded as real numbers;
spectral coefficients as complex numbers; fallible operations return
`Option`.
-/

/-- Modelled from the spec: the `thinkdsp` Signal hierarchy (missing from the
repository source).  A tagged variant over Cosine, Sine and Sum, where Sum
holds an ordered list of component signals (spec §3, §9). -/
inductive Signal where
  | cosine (freq amp offset : ℝ)
  | sine (freq amp offset : ℝ)
  | sum (components : List Signal)

mutual
/-- Modelled from the spec: `Signal.evaluate` (missing from the repository
source).  For Cosine/Sine, `amp * cos_or_sin(2π·freq·t + offset)`; for Sum,
the sum of each component's evaluation (spec §4.1). -/
noncomputable def Signal.evaluate : Signal → ℝ → ℝ
  | .cosine freq amp offset, t => amp * Real.cos (2 * Real.pi * freq * t + offset)
  | .sine freq amp offset, t => amp * Real.sin (2 * Real.pi * freq * t + offset)
  | .sum cs, t => Signal.evaluateList cs t

/-- Modelled from the spec: evaluation of a list of component signals at a
time, summing the results (spec §4.1, Sum case). -/
noncomputable def Signal.evaluateList : List Signal → ℝ → ℝ
  | [], _ => 0
  | c :: cs, t => Signal.evaluate c t + Signal.evaluateList cs t
end

/-- Modelled from the spec: the component list of a signal — a Sum exposes its
components, any other signal is a singleton component (spec §4.1 `add`,
flattening of existing Sums). -/
def Signal.components : Signal → List Signal
  | .sum cs => cs
  | s => [s]

/-- Modelled from the spec: `Signal.add` (missing from the repository source).
Returns a Sum whose component list is the concatenation of both sides'
components, flattening any existing Sums (spec §4.1). -/
def Signal.add (s1 s2 : Signal) : Signal :=
  .sum (s1.components ++ s2.components)

/-- Modelled from the spec: evaluating a signal at a sequence of times,
element-wise (spec §4.1: `evaluate` accepts an arbitrary-length time sequence
and returns the same length). -/
noncomputable def Signal.evalTimes (s : Signal) (times : List ℝ) : List ℝ :=
  times.map s.evaluate

/-- Modelled from the spec: the Wave entity (missing from the repository
source): parallel sample and timestamp sequences plus a framerate
(spec §3). -/
structure Wave where
  ys : List ℝ
  ts : List ℝ
  framerate : ℝ

/-- Embedding of `stretch` from `src/code/chap01soln.py` (lines 250-252):
`wave.ts *= factor; wave.framerate /= factor`.  In-place mutation is modelled
by returning the updated wave. -/
noncomputable def stretch (wave : Wave) (factor : ℝ) : Wave :=
  { ys := wave.ys, ts := wave.ts.map (· * factor), framerate := wave.framerate / factor }

/-- Embedding of `stretch` with its implicit division-by-zero behaviour made
explicit: Python raises `ZeroDivisionError` on `wave.framerate /= 0`, modelled
as `none`; otherwise the call succeeds and behaves as `stretch`. -/
noncomputable def stretchChecked (wave : Wave) (factor : ℝ) : Option Wave :=
  if factor = 0 then none else some (stretch wave factor)

/-- The largest absolute sample value of a list, 0 for the empty list. -/
noncomputable def maxAbs (ys : List ℝ) : ℝ :=
  (ys.map (fun y => |y|)).foldr max 0

/-- Modelled from the spec: `Wave.normalize` (missing from the repository
source).  In-place rescale of `ys` so that `max(|ys|)` equals the target
amplitude; a defined no-op when all samples are zero — no division by zero
(spec §4.2, §7). -/
noncomputable def Wave.normalize (w : Wave) (amp : ℝ := 1.0) : Wave :=
  if maxAbs w.ys = 0 then w
  else { w with ys := w.ys.map (fun y => y * (amp / maxAbs w.ys)) }

/-- Modelled from the spec: `Wave.segment` (missing from the repository
source).  Returns a new Wave keeping exactly the samples whose timestamps lie
in `[start, start+duration)`, preserving the framerate; a start beyond the
wave's extent yields an empty Wave (spec §4.2). -/
noncomputable def Wave.segment (w : Wave) (start duration : ℝ) : Wave :=
  let pairs := (w.ts.zip w.ys).filter
    (fun p => decide (start ≤ p.1) && decide (p.1 < start + duration))
  { ys := pairs.map Prod.snd, ts := pairs.map Prod.fst, framerate := w.framerate }

/-- Modelled from the spec: the k-th coefficient of the direct DFT of a real
sample sequence (spec §4.4 `forward_real`: results must match the direct DFT
definition on real input). -/
noncomputable def dftCoeff (x : List ℝ) (k : ℕ) : ℂ :=
  ∑ j ∈ Finset.range x.length,
    (x.getD j 0 : ℂ) * Complex.exp (-(2 * Real.pi * Complex.I) * k * j / x.length)

/-- Modelled from the spec: `forward_real` (missing from the repository
source): the DFT of a real input restricted to the non-negative-frequency
coefficients, length `⌊N/2⌋ + 1` (spec §4.4). -/
noncomputable def forward_real (x : List ℝ) : List ℂ :=
  (List.range (x.length / 2 + 1)).map (dftCoeff x)

/-- Modelled from the spec: reconstruction of the k-th full-spectrum
coefficient from the stored non-negative-frequency half, using the Hermitian
symmetry of a real-input spectrum (spec §4.4 `inverse_real`). -/
noncomputable def fullCoeff (cs : List ℂ) (n : ℕ) (k : ℕ) : ℂ :=
  if k ≤ n / 2 then cs.getD k 0 else (starRingEnd ℂ) (cs.getD (n - k) 0)

/-- Modelled from the spec: `inverse_real` (missing from the repository
source): rebuilds the full spectrum from the half-spectrum coefficients and
applies the inverse DFT, returning `output_length` real samples
(spec §4.4). -/
noncomputable def inverse_real (cs : List ℂ) (n : ℕ) : List ℝ :=
  (List.range n).map (fun (j : ℕ) =>
    ((∑ k ∈ Finset.range n,
      fullCoeff cs n k * Complex.exp (2 * Real.pi * Complex.I * k * j / n)) / n).re)

/-- Modelled from the spec: the Spectrum entity (missing from the repository
source): complex coefficients `hs`, parallel frequencies `fs`, and the
originating framerate (spec §3). -/
structure Spectrum where
  hs : List ℂ
  fs : List ℝ
  framerate : ℝ

/-- Modelled from the spec: `Wave.make_spectrum` (missing from the repository
source): forward real transform of `ys` with `fs[i] = i * framerate / N`
(spec §4.2). -/
noncomputable def Wave.make_spectrum (w : Wave) : Spectrum :=
  { hs := forward_real w.ys,
    fs := (List.range (w.ys.length / 2 + 1)).map
      (fun (i : ℕ) => i * w.framerate / w.ys.length),
    framerate := w.framerate }

/-- Modelled from the spec: `Spectrum.low_pass` (missing from the repository
source): zero every coefficient whose corresponding frequency exceeds the
cutoff, in place; no entry is removed (spec §4.3, §3). -/
noncomputable def Spectrum.low_pass (s : Spectrum) (cutoff : ℝ) : Spectrum :=
  { s with hs := List.zipWith (fun f h => if cutoff < f then 0 else h) s.fs s.hs }

/-- Comparator for spectrum peaks: descending amplitude, ties broken by
ascending frequency (spec §4.3 `peaks`). -/
noncomputable def peaksLE (p q : ℝ × ℝ) : Bool :=
  decide (q.1 < p.1 ∨ (p.1 = q.1 ∧ p.2 ≤ q.2))

/-- Modelled from the spec: `Spectrum.peaks` (missing from the repository
source): pair `|hs[i]|` with `fs[i]` and sort descending by amplitude, ties
ascending by frequency.  It returns only a list and leaves the spectrum
unchanged (mutating operations in this embedding return an updated
Spectrum; `peaks` does not) (spec §4.3). -/
noncomputable def Spectrum.peaks (s : Spectrum) : List (ℝ × ℝ) :=
  ((s.hs.map (fun h => Complex.abs h)).zip s.fs).mergeSort peaksLE

/-- Modelled from the spec: `Spectrum.make_wave` (missing from the repository
source): inverse real transform of `hs` at the sample count implied by the
half-spectrum length, with the spectrum's framerate (spec §4.3). -/
noncomputable def Spectrum.make_wave (s : Spectrum) : Wave :=
  { ys := inverse_real s.hs (2 * (s.hs.length - 1)),
    ts := (List.range (2 * (s.hs.length - 1))).map (fun (i : ℕ) => i / s.framerate),
    framerate := s.framerate }

/-- Modelled from the spec: `Signal.make_wave` (missing from the repository
source): `n = round(duration * framerate)` uniformly spaced timestamps from
`start`, signal evaluated at them; fails (`none`, the spec's
`InvalidParameter`) if `duration ≤ 0`, `framerate ≤ 0` or `n = 0`
(spec §4.1). -/
noncomputable def Signal.make_wave (sig : Signal) (duration : ℝ) (start : ℝ := 0)
    (framerate : ℝ := 11025) : Option Wave :=
  if duration ≤ 0 ∨ framerate ≤ 0 ∨ round (duration * framerate) = 0 then none
  else some
    { ys := (List.range (round (duration * framerate)).toNat).map
        (fun (i : ℕ) => sig.evaluate (start + i / framerate)),
      ts := (List.range (round (duration * framerate)).toNat).map
        (fun (i : ℕ) => start + i / framerate),
      framerate := framerate }

/-- Embedding of `filter_wave` from `src/code/chap01.py` (lines 320-339) and
`src/code/chap01soln.py` (lines 142-161).  Each receiver-mutating call in the
Python body is modelled by rebinding the receiver's state; the local `wave`
is threaded through unchanged because `segment` returns a fresh Wave and the
low-pass filter is applied to the derived spectrum only.  The first component
is the audio wave handed to the widget; the second is the state of the `wave`
argument when the call returns. -/
noncomputable def filter_wave (wave : Wave) (start duration cutoff : ℝ) : Wave × Wave :=
  let wave0 := wave
  let seg := wave0.segment start duration
  let spectrum0 := seg.make_spectrum
  let spectrum1 := spectrum0.low_pass cutoff
  let audio := spectrum1.make_wave
  (audio, wave0)

/-- Concrete spectrum used by witnesses. -/
noncomputable def specW : Spectrum :=
  { hs := [1, 2], fs := [100, 200], framerate := 11025 }

/-- Concrete wave used by witnesses. -/
def waveW : Wave := { ys := [1, 2], ts := [0, 1], framerate := 1 }

/-- Concrete one-sample wave used by witnesses. -/
def waveW2 : Wave := { ys := [2], ts := [0], framerate := 44100 }

/-- Concrete signal used by witnesses (the spec §8 scenario mix). -/
def sigW : Signal := Signal.add (.cosine 440 1 0) (.sine 880 0.5 0)

/-- Orthogonality of the discrete Fourier kernel: the geometric sum of the
N-th roots of unity attached to a frequency difference vanishes unless the
difference is zero. -/
lemma sum_exp_pow_ortho (N j l : ℕ) (hj : j < N) (hl : l < N) :
    ∑ k ∈ Finset.range N,
      Complex.exp (2 * Real.pi * Complex.I * ((j : ℂ) - (l : ℂ)) / N) ^ k
      = if j = l then (N : ℂ) else 0 := by
  rcases eq_or_ne j l with rfl | hne
  · simp
  · rw [if_neg hne]
    set c : ℂ := Complex.exp (2 * Real.pi * Complex.I * ((j : ℂ) - (l : ℂ)) / N) with hc
    have hN : (N : ℂ) ≠ 0 := Nat.cast_ne_zero.mpr (by omega)
    have h2 : (2 : ℂ) * Real.pi * Complex.I ≠ 0 := by
      simp [Complex.ext_iff, Real.pi_ne_zero]
    have hc1 : c ≠ 1 := by
      intro h
      rw [hc, Complex.exp_eq_one_iff] at h
      obtain ⟨n, hn⟩ := h
      rw [div_eq_iff hN] at hn
      have key : (j : ℂ) - (l : ℂ) = n * N := by
        apply mul_left_cancel₀ h2
        linear_combination hn
      have hint : (j : ℤ) - (l : ℤ) = n * N := by exact_mod_cast key
      have hN0 : (0 : ℤ) < (N : ℤ) := by exact_mod_cast Nat.pos_of_ne_zero (by omega)
      rcases lt_trichotomy n 0 with h3 | h3 | h3
      · have h4 : n * (N : ℤ) ≤ -N := by nlinarith
        have h5 : (j : ℤ) - (l : ℤ) ≤ -N := hint ▸ h4
        have hlN : (l : ℤ) < N := by exact_mod_cast hl
        omega
      · subst h3
        simp at hint
        omega
      · have h4 : (N : ℤ) ≤ n * N := by nlinarith
        have h5 : (N : ℤ) ≤ (j : ℤ) - (l : ℤ) := hint ▸ h4
        have hjN : (j : ℤ) < N := by exact_mod_cast hj
        omega
    have hcN : c ^ N = 1 := by
      rw [hc, ← Complex.exp_nat_mul]
      have harg : (N : ℂ) * (2 * Real.pi * Complex.I * ((j : ℂ) - (l : ℂ)) / N)
          = ((j : ℤ) - (l : ℤ) : ℂ) * (2 * Real.pi * Complex.I) := by
        push_cast
        field_simp
        ring
      rw [harg]
      exact_mod_cast Complex.exp_int_mul_two_pi_mul_I ((j : ℤ) - (l : ℤ))
    rw [geom_sum_eq hc1, hcN]
    simp

lemma forward_real_length (x : List ℝ) :
    (forward_real x).length = x.length / 2 + 1 := by
  simp [forward_real]

lemma forward_real_getD (x : List ℝ) (k : ℕ) (hk : k < x.length / 2 + 1) :
    (forward_real x).getD k 0 = dftCoeff x k := by
  rw [List.getD_eq_getElem _ _ (by simpa [forward_real_length] using hk)]
  simp [forward_real]

/-- Hermitian symmetry of the DFT of a real sequence: the conjugate of the
coefficient at the mirrored index `N - k` is the coefficient at `k`. -/
lemma dftCoeff_conj (x : List ℝ) (k : ℕ) (hk : k < x.length) :
    (starRingEnd ℂ) (dftCoeff x (x.length - k)) = dftCoeff x k := by
  unfold dftCoeff
  rw [map_sum]
  refine Finset.sum_congr rfl fun j hj => ?_
  rw [Finset.mem_range] at hj
  have hN : (x.length : ℂ) ≠ 0 := Nat.cast_ne_zero.mpr (by omega)
  rw [map_mul, Complex.conj_ofReal, ← Complex.exp_conj]
  have hconjarg : (starRingEnd ℂ) (-(2 * Real.pi * Complex.I) * ((x.length - k : ℕ) : ℂ) * j / x.length)
      = 2 * Real.pi * Complex.I * ((x.length : ℂ) - k) * j / x.length := by
    push_cast [Nat.cast_sub hk.le]
    simp [map_div₀, map_mul, map_sub, map_neg, map_ofNat, Complex.conj_I, Complex.conj_ofReal]
  rw [hconjarg]
  have hsplit : 2 * Real.pi * Complex.I * ((x.length : ℂ) - k) * j / x.length
      = -(2 * Real.pi * Complex.I) * k * j / x.length + j * (2 * Real.pi * Complex.I) := by
    field_simp
    ring
  rw [hsplit, Complex.exp_add, Complex.exp_nat_mul_two_pi_mul_I, mul_one]

/-- The half-spectrum produced by `forward_real` reconstructs, through
`fullCoeff`, every coefficient of the full-length DFT of the input. -/
lemma fullCoeff_forward (x : List ℝ) (k : ℕ) (hk : k < x.length) :
    fullCoeff (forward_real x) x.length k = dftCoeff x k := by
  unfold fullCoeff
  by_cases h : k ≤ x.length / 2
  · rw [if_pos h, forward_real_getD x k (by omega)]
  · rw [if_neg h, forward_real_getD x (x.length - k) (by omega)]
    exact dftCoeff_conj x k hk

/-- C1: round-trip of the real transform pair — for every real sample
sequence `x`, `inverse_real (forward_real x) x.length` restores `x` exactly
(hence certainly within any floating-point tolerance), when no filtering
occurred in between. -/
theorem claim_C1_transform_roundtrip (x : List ℝ) :
    inverse_real (forward_real x) x.length = x := by
  apply List.ext_getElem
  · simp [inverse_real]
  · intro j h1 h2
    simp only [inverse_real, List.getElem_map, List.getElem_range]
    have hN : (x.length : ℂ) ≠ 0 := Nat.cast_ne_zero.mpr (by omega)
    have hsum : ∑ k ∈ Finset.range x.length,
        fullCoeff (forward_real x) x.length k *
          Complex.exp (2 * Real.pi * Complex.I * k * j / x.length)
        = (x.length : ℂ) * (x.getD j 0 : ℂ) := by
      rw [Finset.sum_congr rfl (fun k hk => by
        rw [fullCoeff_forward x k (Finset.mem_range.mp hk)])]
      unfold dftCoeff
      calc ∑ k ∈ Finset.range x.length,
            (∑ l ∈ Finset.range x.length,
              (x.getD l 0 : ℂ) * Complex.exp (-(2 * Real.pi * Complex.I) * k * l / x.length)) *
            Complex.exp (2 * Real.pi * Complex.I * k * j / x.length)
          = ∑ k ∈ Finset.range x.length, ∑ l ∈ Finset.range x.length,
              (x.getD l 0 : ℂ) *
                Complex.exp (2 * Real.pi * Complex.I * ((j : ℂ) - (l : ℂ)) / x.length) ^ k := by
            refine Finset.sum_congr rfl fun k _ => ?_
            rw [Finset.sum_mul]
            refine Finset.sum_congr rfl fun l _ => ?_
            rw [mul_assoc, ← Complex.exp_add, ← Complex.exp_nat_mul]
            congr 2
            field_simp
            ring
        _ = ∑ l ∈ Finset.range x.length, (x.getD l 0 : ℂ) *
              ∑ k ∈ Finset.range x.length,
                Complex.exp (2 * Real.pi * Complex.I * ((j : ℂ) - (l : ℂ)) / x.length) ^ k := by
            rw [Finset.sum_comm]
            exact Finset.sum_congr rfl fun l _ => (Finset.mul_sum _ _ _).symm
        _ = ∑ l ∈ Finset.range x.length, (x.getD l 0 : ℂ) *
              (if j = l then (x.length : ℂ) else 0) := by
            exact Finset.sum_congr rfl fun l hl =>
              congrArg _ (sum_exp_pow_ortho x.length j l h2 (Finset.mem_range.mp hl))
        _ = (x.length : ℂ) * (x.getD j 0 : ℂ) := by
            simp only [mul_ite, mul_zero]
            rw [Finset.sum_ite_eq (Finset.range x.length) j]
            rw [if_pos (Finset.mem_range.mpr h2)]
            ring
    rw [hsum, mul_comm, mul_div_assoc, div_self hN, mul_one]
    rw [List.getD_eq_getElem x 0 h2]
    exact Complex.ofReal_re _

lemma evaluateList_append (l1 l2 : List Signal) (t : ℝ) :
    Signal.evaluateList (l1 ++ l2) t = Signal.evaluateList l1 t + Signal.evaluateList l2 t := by
  induction l1 with
  | nil => simp [Signal.evaluateList]
  | cons c cs ih => simp [Signal.evaluateList, ih]; ring

lemma evaluateList_components (s : Signal) (t : ℝ) :
    Signal.evaluateList s.components t = s.evaluate t := by
  cases s with
  | cosine f a o => simp [Signal.components, Signal.evaluateList, Signal.evaluate]
  | sine f a o => simp [Signal.components, Signal.evaluateList, Signal.evaluate]
  | sum cs => rfl

lemma evaluateList_eq_sum_map (cs : List Signal) (t : ℝ) :
    Signal.evaluateList cs t = (cs.map (fun c => c.evaluate t)).sum := by
  induction cs with
  | nil => rfl
  | cons c cs ih => simp [Signal.evaluateList, ih]

/-- C2: superposition — evaluating the sum of two signals at any time equals
the sum of their evaluations, and evaluating a Sum signal at any sequence of
times is the element-wise (per time) sum of evaluating its components. -/
theorem claim_C2_superposition :
    (∀ (a b : Signal) (t : ℝ), (a.add b).evaluate t = a.evaluate t + b.evaluate t) ∧
    (∀ (cs : List Signal) (times : List ℝ),
      (Signal.sum cs).evalTimes times
        = times.map (fun t => (cs.map (fun c => c.evaluate t)).sum)) := by
  constructor
  · intro a b t
    show Signal.evaluateList (a.components ++ b.components) t = _
    rw [evaluateList_append, evaluateList_components, evaluateList_components]
  · intro cs times
    unfold Signal.evalTimes
    refine List.map_congr_left fun t _ => ?_
    show Signal.evaluateList cs t = _
    exact evaluateList_eq_sum_map cs t

/-- C3: `stretch` multiplies every timestamp by the factor, divides the
framerate by it, and changes nothing else — the samples are not resampled and
the sample count is unchanged. -/
theorem claim_C3_stretch (w : Wave) (factor : ℝ) :
    (stretch w factor).ys = w.ys ∧
    (stretch w factor).ts = w.ts.map (· * factor) ∧
    (stretch w factor).framerate = w.framerate / factor ∧
    (stretch w factor).ts.length = w.ts.length ∧
    (stretch w factor).ys.length = w.ys.length :=
  ⟨rfl, rfl, rfl, by simp [stretch], rfl⟩

/-- C4: after `low_pass cutoff` every coefficient whose frequency exceeds the
cutoff is exactly zero, every other coefficient is unchanged, and no entry of
`hs` or `fs` is removed, assuming the data-model invariant that `hs` and `fs`
are parallel sequences. -/
theorem claim_C4_low_pass (s : Spectrum) (cutoff : ℝ)
    (hlen : s.hs.length = s.fs.length) :
    (s.low_pass cutoff).hs.length = s.hs.length ∧
    (s.low_pass cutoff).fs = s.fs ∧
    (s.low_pass cutoff).framerate = s.framerate ∧
    ∀ (i : ℕ) (hi : i < (s.low_pass cutoff).hs.length),
      (s.low_pass cutoff).hs.get ⟨i, hi⟩
        = if cutoff < s.fs.getD i 0 then 0 else s.hs.getD i 0 := by
  refine ⟨by simp [Spectrum.low_pass, hlen], rfl, rfl, ?_⟩
  intro i hi
  have hi2 : i < (List.zipWith (fun f h => if cutoff < f then 0 else h) s.fs s.hs).length := hi
  rw [List.length_zipWith] at hi2
  have hifs : i < s.fs.length := lt_of_lt_of_le hi2 (min_le_left _ _)
  have hihs : i < s.hs.length := lt_of_lt_of_le hi2 (min_le_right _ _)
  show (List.zipWith (fun f h => if cutoff < f then 0 else h) s.fs s.hs).get ⟨i, hi⟩ = _
  rw [List.get_eq_getElem, List.getElem_zipWith,
    List.getD_eq_getElem s.fs 0 hifs, List.getD_eq_getElem s.hs 0 hihs]

/-- Concrete input for the C4 witness: a two-coefficient spectrum. -/
theorem claim_C4_low_pass_witness :
    specW.hs.length = specW.fs.length ∧
    ((specW.low_pass 150).hs.length = specW.hs.length ∧
     (specW.low_pass 150).fs = specW.fs ∧
     (specW.low_pass 150).framerate = specW.framerate ∧
     ∀ (i : ℕ) (hi : i < (specW.low_pass 150).hs.length),
       (specW.low_pass 150).hs.get ⟨i, hi⟩
         = if (150 : ℝ) < specW.fs.getD i 0 then 0 else specW.hs.getD i 0) :=
  ⟨rfl, claim_C4_low_pass specW 150 rfl⟩

lemma peaksLE_trans (a b c : ℝ × ℝ) (hab : peaksLE a b = true)
    (hbc : peaksLE b c = true) : peaksLE a c = true := by
  simp only [peaksLE, decide_eq_true_eq] at *
  rcases hab with h1 | ⟨h1, h2⟩ <;> rcases hbc with h3 | ⟨h3, h4⟩
  · exact Or.inl (lt_trans h3 h1)
  · exact Or.inl (h3 ▸ h1)
  · exact Or.inl (h1 ▸ h3)
  · exact Or.inr ⟨h1.trans h3, h2.trans h4⟩

lemma peaksLE_total (a b : ℝ × ℝ) : (peaksLE a b || peaksLE b a) = true := by
  simp only [peaksLE, Bool.or_eq_true, decide_eq_true_eq]
  rcases lt_trichotomy a.1 b.1 with h | h | h
  · exact Or.inr (Or.inl h)
  · rcases le_total a.2 b.2 with h2 | h2
    · exact Or.inl (Or.inr ⟨h, h2⟩)
    · exact Or.inr (Or.inr ⟨h.symm, h2⟩)
  · exact Or.inl (Or.inl h)

/-- C5: `peaks` returns exactly the pairs `(|hs[i]|, fs[i])` (as a
permutation of the index-wise pairing), sorted in descending order of
amplitude with ties broken by ascending frequency; the spectrum itself is
left unchanged (`peaks` produces no updated Spectrum in this embedding). -/
theorem claim_C5_peaks (s : Spectrum) :
    s.peaks.Perm ((s.hs.map (fun h => Complex.abs h)).zip s.fs) ∧
    s.peaks.Pairwise (fun p q => q.1 < p.1 ∨ (p.1 = q.1 ∧ p.2 ≤ q.2)) := by
  constructor
  · exact List.mergeSort_perm _ peaksLE
  · have h := List.sorted_mergeSort peaksLE_trans peaksLE_total
      ((s.hs.map (fun h => Complex.abs h)).zip s.fs)
    exact h.imp (fun hpq => by simpa [peaksLE, decide_eq_true_eq] using hpq)

/-- C6: a segment preserves the framerate, every timestamp it keeps lies in
`[start, start + duration)` and is one of the original timestamps, and a
start beyond the wave's extent yields an empty Wave rather than an error. -/
theorem claim_C6_segment (w : Wave) (start duration : ℝ) :
    (w.segment start duration).framerate = w.framerate ∧
    (∀ t ∈ (w.segment start duration).ts,
      (start ≤ t ∧ t < start + duration) ∧ t ∈ w.ts) ∧
    ((∀ t ∈ w.ts, t < start) →
      (w.segment start duration).ts = [] ∧ (w.segment start duration).ys = []) := by
  refine ⟨rfl, ?_, ?_⟩
  · intro t ht
    simp only [Wave.segment, List.mem_map, List.mem_filter] at ht
    obtain ⟨p, ⟨hzip, hpred⟩, hfst⟩ := ht
    rw [Bool.and_eq_true, decide_eq_true_eq, decide_eq_true_eq] at hpred
    have hmem := List.of_mem_zip hzip
    exact ⟨hfst ▸ ⟨hpred.1, hpred.2⟩, hfst ▸ hmem.1⟩
  · intro h
    have hnil : (w.ts.zip w.ys).filter
        (fun p => decide (start ≤ p.1) && decide (p.1 < start + duration)) = [] := by
      rw [List.filter_eq_nil_iff]
      intro p hp
      have hmem := List.of_mem_zip hp
      have hlt := h p.1 hmem.1
      simp [not_le.mpr hlt]
    constructor
    · show ((w.ts.zip w.ys).filter _).map Prod.fst = []
      rw [hnil]
      rfl
    · show ((w.ts.zip w.ys).filter _).map Prod.snd = []
      rw [hnil]
      rfl

/-- Concrete input for the C6 witness: a start beyond the wave's extent
produces the empty segment. -/
theorem claim_C6_segment_witness :
    (∀ t ∈ waveW.ts, t < 5) ∧
    ((waveW.segment 5 1).ts = [] ∧ (waveW.segment 5 1).ys = []) := by
  have h : ∀ t ∈ waveW.ts, t < (5 : ℝ) := by
    intro t ht
    simp only [waveW, List.mem_cons, List.not_mem_nil, or_false] at ht
    rcases ht with rfl | rfl <;> norm_num
  exact ⟨h, (claim_C6_segment waveW 5 1).2.2 h⟩

lemma maxAbs_nonneg (ys : List ℝ) : 0 ≤ maxAbs ys := by
  induction ys with
  | nil => simp [maxAbs]
  | cons y ys ih =>
    simp only [maxAbs, List.map_cons, List.foldr_cons]
    exact le_max_of_le_right ih

lemma maxAbs_map_mul (ys : List ℝ) (c : ℝ) :
    maxAbs (ys.map (fun y => y * c)) = |c| * maxAbs ys := by
  induction ys with
  | nil => simp [maxAbs]
  | cons y ys ih =>
    simp only [maxAbs, List.map_cons, List.foldr_cons] at *
    rw [ih, abs_mul, mul_max_of_nonneg _ _ (abs_nonneg c), mul_comm |y| |c|]

/-- C7 counterexample: for a negative target amplitude the rescale cannot
land on the target — normalizing the one-sample wave `[2]` to target `-1`
leaves a maximum absolute amplitude of `1`, not `-1`. -/
theorem claim_C7_counterexample :
    maxAbs ((waveW2.normalize (-1)).ys) ≠ -1 := by
  have hm : maxAbs waveW2.ys = 2 := by
    simp [waveW2, maxAbs]
  have : (waveW2.normalize (-1)).ys = waveW2.ys.map (fun y => y * ((-1) / maxAbs waveW2.ys)) := by
    rw [Wave.normalize, if_neg (by rw [hm]; norm_num)]
  rw [this, maxAbs_map_mul, hm]
  norm_num [abs_div]

/-- C7 (amended: nonnegative target amplitude): `normalize` rescales `ys` in
place so that the maximum absolute sample equals the target; a wave whose
samples are all zero is left untouched — no division by zero occurs; the
timestamps and framerate are never altered. -/
theorem claim_C7_normalize (w : Wave) (amp : ℝ) (hamp : 0 ≤ amp) :
    (maxAbs w.ys ≠ 0 → maxAbs ((w.normalize amp).ys) = amp) ∧
    (maxAbs w.ys = 0 → w.normalize amp = w) ∧
    (w.normalize amp).ts = w.ts ∧
    (w.normalize amp).framerate = w.framerate := by
  refine ⟨?_, ?_, ?_, ?_⟩
  · intro hne
    have hpos : 0 < maxAbs w.ys := lt_of_le_of_ne (maxAbs_nonneg w.ys) (Ne.symm hne)
    rw [Wave.normalize, if_neg hne]
    show maxAbs (w.ys.map (fun y => y * (amp / maxAbs w.ys))) = amp
    rw [maxAbs_map_mul, abs_of_nonneg (div_nonneg hamp hpos.le), div_mul_cancel₀ amp hne]
  · intro h0
    rw [Wave.normalize, if_pos h0]
  · rw [Wave.normalize]
    split <;> rfl
  · rw [Wave.normalize]
    split <;> rfl

/-- Concrete input for the C7 witness: normalizing the one-sample wave `[2]`
to target amplitude 1 yields maximum absolute amplitude 1. -/
theorem claim_C7_normalize_witness :
    (0 : ℝ) ≤ 1 ∧ maxAbs waveW2.ys ≠ 0 ∧ maxAbs ((waveW2.normalize 1).ys) = 1 := by
  have hm : maxAbs waveW2.ys ≠ 0 := by
    simp [waveW2, maxAbs]
  exact ⟨by norm_num, hm, (claim_C7_normalize waveW2 1 (by norm_num)).1 hm⟩

/-- C8 counterexample: a positive duration and framerate do not guarantee a
Wave — at `duration = 0.1`, `framerate = 1` the rounded sample count is 0 and
`make_wave` fails with the spec's `InvalidParameter` instead of returning a
Wave. -/
theorem claim_C8_counterexample :
    Signal.make_wave sigW 0.1 0 1 = none := by
  rw [Signal.make_wave, if_pos]
  right; right
  norm_num [round_eq]

/-- C8 (amended: additionally `round(duration * framerate) ≠ 0`): `make_wave`
returns a Wave with exactly `round(duration * framerate)` samples, timestamps
uniformly spaced at `1/framerate` starting at `start`, the signal evaluated
at those timestamps, and the requested framerate. -/
theorem claim_C8_make_wave (sig : Signal) (duration start framerate : ℝ)
    (hd : 0 < duration) (hf : 0 < framerate)
    (hn : round (duration * framerate) ≠ 0) :
    ∃ w : Wave, sig.make_wave duration start framerate = some w ∧
      w.ys.length = (round (duration * framerate)).toNat ∧
      w.ts.length = (round (duration * framerate)).toNat ∧
      w.framerate = framerate ∧
      w.ts = (List.range (round (duration * framerate)).toNat).map
        (fun (i : ℕ) => start + i / framerate) ∧
      w.ys = w.ts.map sig.evaluate := by
  rw [Signal.make_wave, if_neg (by push_neg; exact ⟨hd, hf, hn⟩)]
  refine ⟨_, rfl, by simp, by simp, rfl, rfl, ?_⟩
  simp [List.map_map]

/-- Concrete input for the C8 witness: the spec §8 scenario — the 440 Hz
cosine plus 880 Hz sine mix sampled for half a second at 11025 Hz yields
exactly 5512 or 5513 samples (here 5513 = round(5512.5)). -/
theorem claim_C8_make_wave_witness :
    (0 : ℝ) < 0.5 ∧ (0 : ℝ) < 11025 ∧ round ((0.5 : ℝ) * 11025) ≠ 0 ∧
    ∃ w : Wave, sigW.make_wave 0.5 0 11025 = some w ∧
      (w.ys.length = 5512 ∨ w.ys.length = 5513) := by
  have hround : round ((0.5 : ℝ) * 11025) = 5513 := by norm_num [round_eq]
  obtain ⟨w, hw, hlen, -⟩ := claim_C8_make_wave sigW 0.5 0 11025 (by norm_num)
    (by norm_num) (by rw [hround]; norm_num)
  refine ⟨by norm_num, by norm_num, by rw [hround]; norm_num, w, hw, Or.inr ?_⟩
  rw [hlen, hround]
  rfl

/-- C9: `filter_wave` leaves the wave it is given untouched — same samples,
same timestamps, same framerate — because it filters only a spectrum derived
from a segment copy; the audio it produces is exactly the inverse transform
of the low-passed spectrum of the segment. -/
theorem claim_C9_filter_wave (w : Wave) (start duration cutoff : ℝ) :
    (filter_wave w start duration cutoff).2.ys = w.ys ∧
    (filter_wave w start duration cutoff).2.ts = w.ts ∧
    (filter_wave w start duration cutoff).2.framerate = w.framerate ∧
    (filter_wave w start duration cutoff).2 = w ∧
    (filter_wave w start duration cutoff).1
      = ((w.segment start duration).make_spectrum.low_pass cutoff).make_wave :=
  ⟨rfl, rfl, rfl, rfl, rfl⟩

/-- C10: stretching divides the framerate by the factor, so the call is only
defined for a nonzero factor: at factor 0 the division-by-zero error fires
(`none`), and under the precondition `factor ≠ 0` the error branch is
unreachable and the call behaves exactly as `stretch`. -/
theorem claim_C10_stretch_nonzero (w : Wave) (factor : ℝ) :
    stretchChecked w 0 = none ∧
    (factor ≠ 0 → stretchChecked w factor = some (stretch w factor)) :=
  ⟨if_pos rfl, fun h => if_neg h⟩

/-- Concrete input for the C10 witness: factor 2 is nonzero, so the checked
stretch succeeds. -/
theorem claim_C10_stretch_nonzero_witness :
    (2 : ℝ) ≠ 0 ∧ stretchChecked waveW2 2 = some (stretch waveW2 2) :=
  ⟨by norm_num, (claim_C10_stretch_nonzero waveW2 2).2 (by norm_num)⟩
